import Mathlib

/-!
Verification development for the Voronoi-approximation colorer (glass.go).

Shallow embedding notes.

Geometry (line, xy, biscector, drawNear sampling) is embedded over the exact
rationals; the Go program uses float64.  The claims settled against this part
are structural (which loops run, how many samples are produced, which
coefficients are zero), and the concrete inputs used in counterexamples are
small integers and halves, on which float64 arithmetic is exact, so no claim
below depends on rounding.  Division in ℚ is total with x / 0 = 0, where Go
float division by zero yields a non-finite value; again no claim below reads
the numeric value of such a quotient, only the fact that the loop performing
it still runs.

The adjacency list (Go: adjList, a map from xy to a set map) is embedded as an
association list in insertion order, which is exactly the content of the Go
map.  Go map iteration order is unspecified and varies between ranges; every
place the Go code ranges over a map (both loops of enStack) therefore takes
the enumeration as an explicit oracle parameter (orders), one pair of
enumerations per recursion depth: the first component is the enumeration used
by the low-degree scan, the second the one used by the fallback loop.  A run
of the Go program corresponds to some choice of these enumerations.

enStack in Go is self-recursion whose termination is not syntactically
guaranteed (and, as proved below, genuinely fails for some admissible
iteration orders); it is embedded with explicit fuel, where a none result
means the recursion did not finish within the given depth.

colorPoints in Go looks sites up through tree.KNN(key, 1); every key stored in
the adjacency list is the exact coordinate vector of a site, so with distinct
sites that query returns the site with that coordinate key.  The embedding
therefore identifies a site with its coordinate key and carries the mutable
color fields as a function from keys to colors, initially the constant
RGBA(0,0,0,255) that main assigns at site creation.  rand.Shuffle of the
global palette slice is an arbitrary permutation of the palette at each
iteration, supplied by the shuffles oracle.
-/

/-- Color values: Go color.RGBA with four uint8 fields.  Only the six palette
constants, which fit a byte, and the initial black are ever compared. -/
structure Rgba where
  r : ℕ
  g : ℕ
  b : ℕ
  a : ℕ
deriving DecidableEq

/-- The fixed 6-entry palette, Go global var colors. -/
def paletteColors : List Rgba :=
  [⟨155, 17, 30, 255⟩, ⟨190, 83, 28, 255⟩, ⟨241, 196, 0, 255⟩,
   ⟨19, 104, 67, 255⟩, ⟨135, 206, 235, 255⟩, ⟨89, 49, 95, 255⟩]

/-- The color main assigns to every freshly created site. -/
def black : Rgba := ⟨0, 0, 0, 255⟩

/-- Go type xy: a 2-D coordinate key. -/
structure xy where
  x : ℚ
  y : ℚ
deriving DecidableEq

/-- Go type line: coefficients of an implicit line. -/
structure line where
  a : ℚ
  b : ℚ
  c : ℚ
deriving DecidableEq

/-- Go method point.line: the line through two points. -/
def lineThrough (p o : xy) : line :=
  ⟨p.y - o.y, o.x - p.x, p.y * o.x - o.y * p.x⟩

/-- Go method line.perp: the perpendicular to l through p. -/
def perp (l : line) (p : xy) : line :=
  ⟨l.b, -l.a, l.b * p.x - l.a * p.y⟩

/-- Go method point.biscector: perpendicular bisector of segment p-o, the
perpendicular to the line through them taken at their midpoint. -/
def biscector (p o : xy) : line :=
  perp (lineThrough p o) ⟨(p.x + o.x) / 2, (p.y + o.y) / 2⟩

/-- Go global maxX = 58 * 40. -/
def maxX : ℕ := 58 * 40

/-- Go global maxY = 20 * 40. -/
def maxY : ℕ := 20 * 40

/-- One candidate point of the first drawNear loop: for integer x the point
(x, -(a/b) x + c/b). -/
def xSample (l : line) (x : ℕ) : xy :=
  ⟨(x : ℚ), -(l.a / l.b) * (x : ℚ) + l.c / l.b⟩

/-- One candidate point of the second drawNear loop: for integer y the point
(-(b/a) y + c/a, y). -/
def ySample (l : line) (y : ℕ) : xy :=
  ⟨-(l.b / l.a) * (y : ℚ) + l.c / l.a, (y : ℚ)⟩

/-- The full sequence of candidate points drawNear feeds to the 2-nearest
query: the x loop over 0 ≤ x < maxX followed by the y loop over
0 ≤ y < maxY.  Both loops run unconditionally for every line. -/
def drawNearCandidates (l : line) : List xy :=
  ((List.range maxX).map (xSample l)) ++ ((List.range maxY).map (ySample l))

/-- Content of a Go adjList (map from key to neighbor-set map), as an
association list in insertion order.  The graph algorithms below only use
equality on keys, so they are stated over any type with decidable equality;
the program instantiates it at xy. -/
abbrev AdjMap (α : Type) := List (α × List α)

/-- Neighbor set of a key: al.l(k), the empty set when k is not a key. -/
def nbrsOf {α : Type} [DecidableEq α] : AdjMap α → α → List α
  | [], _ => []
  | (k, ns) :: rest, q => if k = q then ns else nbrsOf rest q

/-- The key set of the map, in insertion order. -/
def keysOf {α : Type} (m : AdjMap α) : List α := m.map Prod.fst

/-- Go method adjList.add: ensure key a exists and insert b into its
neighbor set (map insertion: idempotent). -/
def addEntry {α : Type} [DecidableEq α] : AdjMap α → α → α → AdjMap α
  | [], q, b => [(q, [b])]
  | (k, ns) :: rest, q, b =>
      if k = q then (k, if b ∈ ns then ns else ns ++ [b]) :: rest
      else (k, ns) :: addEntry rest q b

/-- Go method adjList.link: record the edge in both directions. -/
def link {α : Type} [DecidableEq α] (m : AdjMap α) (p q : α) : AdjMap α :=
  addEntry (addEntry m p q) q p

/-- Fold link over a list of recorded pairs; the adjacency recorder is a
sequence of link calls starting from the empty map. -/
def linkAll {α : Type} [DecidableEq α] (m : AdjMap α) (ps : List (α × α)) : AdjMap α :=
  ps.foldl (fun acc p => link acc p.1 p.2) m

/-- b is recorded as a neighbor of a. -/
def adjMem {α : Type} [DecidableEq α] (m : AdjMap α) (p q : α) : Prop :=
  q ∈ nbrsOf m p

/-- Go method adjList.enStack.  orders d supplies, for recursion depth d, the
enumeration order of the keys used by the low-degree scan (first component)
and by the fallback loop (second component); Go map iteration order is
unspecified, so any enumeration is an admissible behavior.  The fuel argument
bounds the recursion depth; none models a recursion that has not finished. -/
def enStack {α : Type} [DecidableEq α] (m : AdjMap α) (orders : ℕ → List α × List α) :
    ℕ → List α → ℕ → Option (List α)
  | _, _, 0 => none
  | d, seen, fuel + 1 =>
    match (orders d).1.find? (fun k =>
        decide (((nbrsOf m k).countP (fun n => decide (n ∉ seen)) < 6) ∧ k ∉ seen)) with
    | some k =>
        if (k :: seen).length = (keysOf m).length then some [k]
        else (enStack m orders (d + 1) (k :: seen) fuel).map (fun out => k :: out)
    | none =>
        match (orders d).2.head? with
        | some k =>
            let seen2 := if k ∈ seen then seen else k :: seen
            if seen2.length = (keysOf m).length then some [k]
            else (enStack m orders (d + 1) seen2 fuel).map (fun out => k :: out)
        | none => some []

/-- The inner assignment loop of colorPoints: for each c of the shuffled
palette in order, if c is not among the seen colors then overwrite the color
field with c.  There is no break, so the field ends at the last free color,
or keeps the current value when every palette color is seen. -/
def assignLoop (seenCols : List Rgba) (shuffled : List Rgba) (cur : Rgba) : Rgba :=
  shuffled.foldl (fun acc c => if c ∈ seenCols then acc else c) cur

/-- One iteration of the colorPoints loop at site k: collect the colors of all
recorded neighbors of k (colored or not; uncolored ones contribute their
initial black) and run the assignment loop on the shuffled palette. -/
def colorStep {α : Type} [DecidableEq α] (m : AdjMap α) (shuffled : List Rgba)
    (col : α → Rgba) (k : α) : α → Rgba :=
  fun s => if s = k then assignLoop ((nbrsOf m k).map col) shuffled (col k) else col s

/-- The colorPoints loop over the sites listed in ks (already reversed), with
t the index into the shuffle oracle. -/
def colorLoop {α : Type} [DecidableEq α] (m : AdjMap α) (shuffles : ℕ → List Rgba) :
    List α → ℕ → (α → Rgba) → (α → Rgba)
  | [], _, col => col
  | k :: ks, t, col => colorLoop m shuffles ks (t + 1) (colorStep m (shuffles t) col k)

/-- The sequence of values written to the color field of the site processed at
one iteration: one write per shuffled color absent from the seen set. -/
def assignWrites (seenCols : List Rgba) (shuffled : List Rgba) : List Rgba :=
  shuffled.filter (fun c => decide (c ∉ seenCols))

/-- The chronological log of all writes colorPoints performs to site color
fields while processing ks: each entry is (site, value written). -/
def colorWriteLog {α : Type} [DecidableEq α] (m : AdjMap α) (shuffles : ℕ → List Rgba) :
    List α → ℕ → (α → Rgba) → List (α × Rgba)
  | [], _, _ => []
  | k :: ks, t, col =>
      ((assignWrites ((nbrsOf m k).map col) (shuffles t)).map (fun c => (k, c)))
        ++ colorWriteLog m shuffles ks (t + 1) (colorStep m (shuffles t) col k)

/-- Go function colorPoints: build the elimination stack with enStack from an
empty seen map, then walk it from the last element to the first, coloring each
site.  col0 is the colors of the sites on entry (main creates every site
black). -/
def colorPoints {α : Type} [DecidableEq α] (m : AdjMap α) (orders : ℕ → List α × List α)
    (shuffles : ℕ → List Rgba) (fuel : ℕ) (col0 : α → Rgba) : Option (α → Rgba) :=
  (enStack m orders 0 [] fuel).map (fun stack => colorLoop m shuffles stack.reverse 0 col0)

/-- The degeneracy condition the spec relies on: every nonempty set of
still-unseen vertices contains one with fewer than 6 unseen neighbors.  Stated
over subsets of the key set so that it is decidable on concrete graphs. -/
def Degenerate {α : Type} [DecidableEq α] (m : AdjMap α) : Prop :=
  ∀ S ∈ (keysOf m).toFinset.powerset, S ≠ (keysOf m).toFinset →
    ∃ k ∈ keysOf m, k ∉ S ∧ (nbrsOf m k).countP (fun n => decide (n ∉ S)) < 6

/-- out is a peel order from the given seen set: each vertex, at the moment it
is appended, has fewer than 6 neighbors outside the seen set. -/
def DegenOrderFrom {α : Type} [DecidableEq α] (m : AdjMap α) : List α → List α → Prop
  | _, [] => True
  | seen, k :: rest =>
      (nbrsOf m k).countP (fun n => decide (n ∉ seen)) < 6 ∧ DegenOrderFrom m (k :: seen) rest

instance {α : Type} [DecidableEq α] (m : AdjMap α) (p q : α) : Decidable (adjMem m p q) := by
  unfold adjMem; infer_instance

instance {α : Type} [DecidableEq α] (m : AdjMap α) : Decidable (Degenerate m) := by
  unfold Degenerate; infer_instance

/-- A constant shuffle oracle: the palette is left in its declared order at
every iteration (one possible outcome of rand.Shuffle at each step). -/
def shufId : ℕ → List Rgba := fun _ => paletteColors

/-- The adjacency map of a single recorded edge between sites 0 and 1. -/
def medge : AdjMap ℕ := linkAll [] [(0, 1)]

/-- A map-iteration oracle enumerating the two keys of medge as 0, 1. -/
def ordA : ℕ → List ℕ × List ℕ := fun _ => ([0, 1], [0, 1])

/-- A map-iteration oracle enumerating the two keys of medge as 1, 0. -/
def ordB : ℕ → List ℕ × List ℕ := fun _ => ([1, 0], [1, 0])

/-- The pair list recording every edge of the complete graph on sites 0..7. -/
def k8pairs : List (ℕ × ℕ) :=
  [(0,1),(0,2),(0,3),(0,4),(0,5),(0,6),(0,7),
   (1,2),(1,3),(1,4),(1,5),(1,6),(1,7),
   (2,3),(2,4),(2,5),(2,6),(2,7),
   (3,4),(3,5),(3,6),(3,7),
   (4,5),(4,6),(4,7),
   (5,6),(5,7),
   (6,7)]

/-- The complete adjacency map on sites 0..7: every vertex has degree 7, so
the low-degree scan of enStack fails until two vertices are seen. -/
def mK8 : AdjMap ℕ := linkAll [] k8pairs

/-- The key list of mK8 in insertion order. -/
def k8keys : List ℕ := [0, 1, 2, 3, 4, 5, 6, 7]

/-- Iteration oracle for mK8 whose two fallback steps pick the fresh vertices
0 and then 1. -/
def ordDense : ℕ → List ℕ × List ℕ :=
  fun d => (k8keys, if d = 0 then k8keys else [1, 0, 2, 3, 4, 5, 6, 7])

/-- Iteration oracle for mK8 whose second fallback step enumerates the
already-seen vertex 0 first, making enStack append it a second time. -/
def ordDense2 : ℕ → List ℕ × List ℕ :=
  fun d => (k8keys, if d ≤ 1 then k8keys else [1, 0, 2, 3, 4, 5, 6, 7])

lemma drawNearCandidates_length (l : line) :
    (drawNearCandidates l).length = maxX + maxY := by
  simp [drawNearCandidates]

lemma assignLoop_eq_lastFree (seenCols : List Rgba) (cur : Rgba) (l : List Rgba) :
    assignLoop seenCols l cur =
      ((l.filter (fun c => decide (c ∉ seenCols))).getLast?).getD cur := by
  induction l using List.reverseRecOn with
  | nil => rfl
  | append_singleton xs c ih =>
      unfold assignLoop at ih ⊢
      rw [List.foldl_append, List.filter_append]
      by_cases h : c ∈ seenCols
      · simp only [List.foldl_cons, List.foldl_nil, if_pos h, List.filter_cons, List.filter_nil]
        have hc : decide (c ∉ seenCols) = false := by simp [h]
        rw [hc]
        simpa using ih
      · simp only [List.foldl_cons, List.foldl_nil, if_neg h, List.filter_cons, List.filter_nil]
        have hc : decide (c ∉ seenCols) = true := by simp [h]
        rw [hc]
        simp [List.getLast?_concat]

lemma colorLoop_append {α : Type} [DecidableEq α] (m : AdjMap α) (sh : ℕ → List Rgba) :
    ∀ (xs ys : List α) (t : ℕ) (col : α → Rgba),
      colorLoop m sh (xs ++ ys) t col =
        colorLoop m sh ys (t + xs.length) (colorLoop m sh xs t col) := by
  intro xs
  induction xs with
  | nil => intro ys t col; simp [colorLoop]
  | cons k ks ih =>
      intro ys t col
      rw [show (k :: ks) ++ ys = k :: (ks ++ ys) from rfl]
      rw [show colorLoop m sh (k :: (ks ++ ys)) t col
            = colorLoop m sh (ks ++ ys) (t + 1) (colorStep m (sh t) col k) from rfl]
      rw [show colorLoop m sh (k :: ks) t col
            = colorLoop m sh ks (t + 1) (colorStep m (sh t) col k) from rfl]
      rw [ih]
      have h : t + 1 + ks.length = t + (k :: ks).length := by
        rw [List.length_cons]; omega
      rw [h]

lemma colorLoop_not_mem {α : Type} [DecidableEq α] (m : AdjMap α) (sh : ℕ → List Rgba) :
    ∀ (ks : List α) (t : ℕ) (col : α → Rgba) (s : α), s ∉ ks →
      colorLoop m sh ks t col s = col s := by
  intro ks
  induction ks with
  | nil => intro t col s _; rfl
  | cons k ks ih =>
      intro t col s h
      have hs : s ∉ ks := fun hh => h (List.mem_cons_of_mem _ hh)
      have hk : s ≠ k := fun hh => h (hh ▸ List.mem_cons_self _ _)
      rw [colorLoop, ih _ _ _ hs, colorStep]
      simp [hk]

lemma nbrsOf_addEntry {α : Type} [DecidableEq α] :
    ∀ (m : AdjMap α) (p q a b : α),
      b ∈ nbrsOf (addEntry m p q) a ↔ (b ∈ nbrsOf m a ∨ (a = p ∧ b = q)) := by
  intro m
  induction m with
  | nil =>
      intro p q a b
      by_cases h : p = a
      · subst h
        simp [addEntry, nbrsOf]
      · simp only [addEntry, nbrsOf, if_neg h]
        simp only [List.not_mem_nil, false_or]
        constructor
        · intro hf; exact hf.elim
        · rintro ⟨ha, _⟩; exact absurd ha.symm h
  | cons e rest ih =>
      intro p q a b
      obtain ⟨k, ns⟩ := e
      by_cases hk : k = p
      · subst hk
        by_cases ha : k = a
        · subst ha
          by_cases hq : q ∈ ns
          · rw [show addEntry ((k, ns) :: rest) k q = (k, if q ∈ ns then ns else ns ++ [q]) :: rest
                  from by simp [addEntry]]
            rw [if_pos hq]
            rw [show nbrsOf ((k, ns) :: rest) k = ns from by simp [nbrsOf]]
            constructor
            · intro hb; exact Or.inl hb
            · rintro (hb | ⟨_, rfl⟩)
              · exact hb
              · exact hq
          · rw [show addEntry ((k, ns) :: rest) k q = (k, if q ∈ ns then ns else ns ++ [q]) :: rest
                  from by simp [addEntry]]
            rw [if_neg hq]
            rw [show nbrsOf ((k, ns ++ [q]) :: rest) k = ns ++ [q] from by simp [nbrsOf]]
            rw [show nbrsOf ((k, ns) :: rest) k = ns from by simp [nbrsOf]]
            simp [List.mem_append]
        · have hak : ¬ a = k := fun hh => ha hh.symm
          rw [show addEntry ((k, ns) :: rest) k q = (k, if q ∈ ns then ns else ns ++ [q]) :: rest
                from by simp [addEntry]]
          rw [show nbrsOf ((k, if q ∈ ns then ns else ns ++ [q]) :: rest) a = nbrsOf rest a
                from by simp [nbrsOf, ha]]
          rw [show nbrsOf ((k, ns) :: rest) a = nbrsOf rest a from by simp [nbrsOf, ha]]
          constructor
          · intro hb; exact Or.inl hb
          · rintro (hb | ⟨hap, _⟩)
            · exact hb
            · exact absurd hap.symm ha
      · rw [show addEntry ((k, ns) :: rest) p q = (k, ns) :: addEntry rest p q
              from by simp [addEntry, hk]]
        by_cases ha : k = a
        · subst ha
          rw [show nbrsOf ((k, ns) :: addEntry rest p q) k = ns from by simp [nbrsOf]]
          rw [show nbrsOf ((k, ns) :: rest) k = ns from by simp [nbrsOf]]
          constructor
          · intro hb; exact Or.inl hb
          · rintro (hb | ⟨hap, _⟩)
            · exact hb
            · exact absurd hap hk
        · rw [show nbrsOf ((k, ns) :: addEntry rest p q) a = nbrsOf (addEntry rest p q) a
                from by simp [nbrsOf, ha]]
          rw [show nbrsOf ((k, ns) :: rest) a = nbrsOf rest a from by simp [nbrsOf, ha]]
          exact ih p q a b

lemma nbrsOf_link {α : Type} [DecidableEq α] (m : AdjMap α) (p q a b : α) :
    b ∈ nbrsOf (link m p q) a ↔
      (b ∈ nbrsOf m a ∨ (a = p ∧ b = q) ∨ (a = q ∧ b = p)) := by
  unfold link
  rw [nbrsOf_addEntry, nbrsOf_addEntry]
  tauto

lemma nbrsOf_linkAll {α : Type} [DecidableEq α] :
    ∀ (ps : List (α × α)) (m : AdjMap α) (a b : α),
      b ∈ nbrsOf (linkAll m ps) a ↔
        (b ∈ nbrsOf m a ∨ (a, b) ∈ ps ∨ (b, a) ∈ ps) := by
  intro ps
  induction ps with
  | nil => intro m a b; simp [linkAll]
  | cons e rest ih =>
      intro m a b
      obtain ⟨p, q⟩ := e
      have h1 : linkAll m ((p, q) :: rest) = linkAll (link m p q) rest := by
        simp [linkAll]
      rw [h1, ih, nbrsOf_link]
      simp only [List.mem_cons, Prod.mk.injEq]
      tauto

/-- C7: the adjacency graph is symmetric at all times during and after
construction.  Any state reachable by the adjacency recorder is linkAll of
the empty map over some pair list (prefixes of the full pair list give the
intermediate states), and in every such state b is a recorded neighbor of a
exactly when a is a recorded neighbor of b. -/
theorem link_symmetric {α : Type} [DecidableEq α] (ps : List (α × α)) (a b : α) :
    adjMem (linkAll [] ps) a b ↔ adjMem (linkAll [] ps) b a := by
  unfold adjMem
  rw [nbrsOf_linkAll, nbrsOf_linkAll]
  simp only [nbrsOf, List.not_mem_nil, false_or]
  tauto

/-- C4 (amended): the edge set built by the adjacency recorder is independent
of the order in which the recorded pairs are processed; edge insertion is
commutative and idempotent, so the graph is determined by the set of samples
alone.  The elimination order and the coloring, by contrast, also depend on
the unspecified Go map iteration order (see the counterexample). -/
theorem linkAll_edgeset_perm_invariant {α : Type} [DecidableEq α]
    (ps qs : List (α × α)) (h : List.Perm ps qs) (a b : α) :
    adjMem (linkAll [] ps) a b ↔ adjMem (linkAll [] qs) a b := by
  unfold adjMem
  rw [nbrsOf_linkAll, nbrsOf_linkAll]
  simp only [nbrsOf, List.not_mem_nil, false_or, h.mem_iff]

/-- Witness for C4 (amended): a concrete permuted pair of sample lists gives
the same recorded edge. -/
theorem linkAll_edgeset_perm_invariant_witness :
    List.Perm [((0 : ℕ), (1 : ℕ)), (2, 3)] [(2, 3), (0, 1)] ∧
    (adjMem (linkAll [] [((0 : ℕ), (1 : ℕ)), (2, 3)]) 0 1 ↔
      adjMem (linkAll [] [((2 : ℕ), (3 : ℕ)), (0, 1)]) 0 1) :=
  ⟨by decide, linkAll_edgeset_perm_invariant [((0 : ℕ), (1 : ℕ)), (2, 3)] [(2, 3), (0, 1)]
      (by decide) 0 1⟩

/-- C4 counterexample: with the same site set (the two keys of medge), the
same shuffle sequence shufId and the same fuel, two admissible map iteration
orders (ordA and ordB) drive the full pipeline to different site-to-color
mappings: site 0 receives the sky-blue palette entry under ordA and the
purple one under ordB.  The pipeline output is therefore not determined by
the seed and the site set alone. -/
theorem pipeline_depends_on_iteration_order :
    (colorPoints medge ordA shufId 5 (fun _ => black)).map (fun f => f 0) =
      some ⟨135, 206, 235, 255⟩ ∧
    (colorPoints medge ordB shufId 5 (fun _ => black)).map (fun f => f 0) =
      some ⟨89, 49, 95, 255⟩ ∧
    (⟨135, 206, 235, 255⟩ : Rgba) ≠ ⟨89, 49, 95, 255⟩ :=
  ⟨by decide, by decide, by decide⟩

/-- C5 (amended): when coloring site k, the inner loop of colorPoints has no
break, so it assigns the LAST color of the shuffled palette that is not among
the colors currently held by the recorded neighbors of k, and leaves the
color field unchanged when no such color exists. -/
theorem colorStep_assigns_last_free {α : Type} [DecidableEq α] (m : AdjMap α)
    (shuffled : List Rgba) (col : α → Rgba) (k : α) :
    colorStep m shuffled col k k =
      ((shuffled.filter (fun c => decide (c ∉ (nbrsOf m k).map col))).getLast?).getD (col k) := by
  unfold colorStep
  rw [if_pos rfl]
  exact assignLoop_eq_lastFree _ _ _

/-- C5 counterexample: in a run on the single-edge graph, site 1 is colored
first, with every neighbor still black, so every palette color is free; the
first free color of the (identity-)shuffled palette is the first palette
entry, but the program assigns the LAST palette entry. -/
theorem colorPoints_first_free_refuted :
    (colorPoints medge ordA shufId 5 (fun _ => black)).map (fun f => f 1) =
      some ⟨89, 49, 95, 255⟩ ∧
    paletteColors.find? (fun c => decide (c ∉ [black])) = some ⟨155, 17, 30, 255⟩ ∧
    (⟨89, 49, 95, 255⟩ : Rgba) ≠ ⟨155, 17, 30, 255⟩ :=
  ⟨by decide, by decide, by decide⟩

/-- C6 (amended): drawNear samples every bisector along BOTH axes
unconditionally: one candidate for every integer x in [0, maxX) from the
first loop and one for every integer y in [0, maxY) from the second loop,
for a total of maxX + maxY candidates, with no selection by coefficient
magnitude. -/
theorem drawNear_samples_both_axes (l : line) :
    (drawNearCandidates l).length = maxX + maxY ∧
    (∀ x : ℕ, x < maxX → xSample l x ∈ drawNearCandidates l) ∧
    (∀ y : ℕ, y < maxY → ySample l y ∈ drawNearCandidates l) := by
  refine ⟨drawNearCandidates_length l, ?_, ?_⟩
  · intro x hx
    exact List.mem_append_left _ (List.mem_map_of_mem _ (List.mem_range.mpr hx))
  · intro y hy
    exact List.mem_append_right _ (List.mem_map_of_mem _ (List.mem_range.mpr hy))

/-- Witness for C6 (amended) at a concrete line and sample index. -/
theorem drawNear_samples_both_axes_witness :
    (0 : ℕ) < maxX ∧ xSample ⟨2, 1, 5/2⟩ 0 ∈ drawNearCandidates ⟨2, 1, 5/2⟩ :=
  ⟨by norm_num [maxX], (drawNear_samples_both_axes ⟨2, 1, 5/2⟩).2.1 0 (by norm_num [maxX])⟩

/-- C6 counterexample: the bisector of sites (0,0) and (2,1) has coefficients
(2, 1, 5/2), whose x coefficient magnitude dominates, so under the claim the
line would be sampled along exactly one axis, yielding maxY (or at most maxX)
candidates; the code produces maxX + maxY candidates, which is neither. -/
theorem drawNear_samples_both_axes_cex :
    biscector ⟨0, 0⟩ ⟨2, 1⟩ = ⟨2, 1, 5/2⟩ ∧
    |(biscector ⟨0, 0⟩ ⟨2, 1⟩).a| > |(biscector ⟨0, 0⟩ ⟨2, 1⟩).b| ∧
    (drawNearCandidates (biscector ⟨0, 0⟩ ⟨2, 1⟩)).length ≠ maxY ∧
    (drawNearCandidates (biscector ⟨0, 0⟩ ⟨2, 1⟩)).length ≠ maxX := by
  have h : biscector ⟨0, 0⟩ ⟨2, 1⟩ = ⟨2, 1, 5/2⟩ := by
    simp only [biscector, lineThrough, perp, line.mk.injEq]
    norm_num
  refine ⟨h, by rw [h]; norm_num, ?_, ?_⟩ <;>
    rw [drawNearCandidates_length] <;> norm_num [maxX, maxY]

/-- C9 (amended): when the two endpoint sites coincide the bisector
coefficients are (0, 0, 0) — in particular both divisor coefficients a and b
are zero — but sampling is NOT skipped: drawNear still runs both loops and
produces its full maxX + maxY candidates, each computed by dividing by the
zero coefficients (in Go float arithmetic these quotients are non-finite; no
guard exists in the code). -/
theorem biscector_degenerate_samples (p : xy) :
    biscector p p = ⟨0, 0, 0⟩ ∧
    (biscector p p).a = 0 ∧ (biscector p p).b = 0 ∧
    (drawNearCandidates (biscector p p)).length = maxX + maxY := by
  have h : biscector p p = ⟨0, 0, 0⟩ := by
    simp [biscector, lineThrough, perp]
  exact ⟨h, by rw [h], by rw [h], drawNearCandidates_length _⟩

/-- C9 counterexample: for the coincident pair (3,4), (3,4) the bisector is
(0,0,0), yet the candidate list still has maxX + maxY entries, which is
nonzero — the sampling of the degenerate line is not skipped. -/
theorem biscector_degenerate_not_skipped_cex :
    biscector ⟨3, 4⟩ ⟨3, 4⟩ = ⟨0, 0, 0⟩ ∧
    (drawNearCandidates (biscector ⟨3, 4⟩ ⟨3, 4⟩)).length = maxX + maxY ∧
    maxX + maxY ≠ 0 := by
  refine ⟨by simp [biscector, lineThrough, perp], ?_, by norm_num [maxX, maxY]⟩
  rw [drawNearCandidates_length]

/-- C2 counterexample: on the complete graph mK8 every vertex initially has 7
unseen neighbors, so the low-degree scan fails and the fallback runs; under
the admissible iteration order ordDense2 the second fallback enumerates the
already-seen vertex 0 first, and enStack appends it a second time.  The
returned order lists vertex 0 twice although it is a key only once: the
output is not a permutation of the vertices. -/
theorem enStack_fallback_duplicate :
    (enStack mK8 ordDense2 0 [] 20).map (fun l => l.count 0) = some 2 ∧
    (keysOf mK8).count 0 = 1 :=
  ⟨by decide, by decide⟩

/-- C1 counterexample: running the full coloring on the complete graph mK8
(whose edges include (0,1)) under the admissible iteration order ordDense,
sites 0 and 1 are the last two processed; at their turns all six palette
colors already appear among their neighbors, the assignment loop writes
nothing, and both keep their initial black — two adjacent sites end with
equal colors. -/
theorem colorPoints_dense_adjacent_same_color :
    adjMem mK8 0 1 ∧
    (colorPoints mK8 ordDense shufId 20 (fun _ => black)).map (fun cf => (cf 0, cf 1)) =
      some (black, black) :=
  ⟨by decide, by decide⟩

/-- C3 counterexample: in the same mK8 run, at the end every palette color
appears among the colors of the neighbors of site 0 (coloring exhaustion),
yet the run completes normally (a some result) and site 0 is silently left
with its initial black, a color outside the palette; no fatal failure of any
kind is raised. -/
theorem colorPoints_exhaustion_silent :
    (colorPoints mK8 ordDense shufId 20 (fun _ => black)).map
        (fun cf => (paletteColors.all (fun c => decide (c ∈ (nbrsOf mK8 0).map cf)), cf 0)) =
      some (true, black) ∧
    black ∉ paletteColors :=
  ⟨by decide, by decide⟩

/-- C8 counterexample: in the run on the single-edge graph, the elimination
stack is [0, 1] and site 1 is processed first with no neighbor colored, so
all six shuffled palette colors are free and the inner loop writes the color
field of site 1 six times, not exactly once. -/
theorem color_written_six_times :
    (enStack medge ordA 0 [] 5).map (fun st =>
        (colorWriteLog medge shufId st.reverse 0 (fun _ => black)).countP
          (fun e => decide (e.1 = 1))) = some 6 ∧
    (6 : ℕ) ≠ 1 :=
  ⟨by decide, by decide⟩

lemma countP_eq_of_forall {α : Type} (p q : α → Bool) (h : ∀ a, p a = q a) :
    ∀ l : List α, l.countP p = l.countP q := by
  intro l
  induction l with
  | nil => rfl
  | cons a l ih => rw [List.countP_cons, List.countP_cons, h, ih]

lemma getLast?_getD_mem {β : Type} : ∀ (l : List β) (z : β), l ≠ [] → (l.getLast?).getD z ∈ l := by
  intro l
  induction l with
  | nil => intro z h; exact absurd rfl h
  | cons a l ih =>
      intro z h
      cases l with
      | nil => simp
      | cons b l2 =>
          rw [List.getLast?_cons_cons]
          exact List.mem_cons_of_mem _ (ih z (List.cons_ne_nil _ _))

lemma enStack_run {α : Type} [DecidableEq α] (m : AdjMap α) (orders : ℕ → List α × List α)
    (hKN : (keysOf m).Nodup) (hDG : Degenerate m)
    (hORD : ∀ d, List.Perm ((orders d).1) (keysOf m)) :
    ∀ (fuel d : ℕ) (seen : List α), seen.Nodup → (∀ x ∈ seen, x ∈ keysOf m) →
      seen.length < (keysOf m).length →
      (keysOf m).length - seen.length ≤ fuel →
      ∃ out, enStack m orders d seen fuel = some out ∧
        out.Nodup ∧
        (∀ x ∈ out, x ∈ keysOf m ∧ x ∉ seen) ∧
        (∀ x ∈ keysOf m, x ∉ seen → x ∈ out) ∧
        DegenOrderFrom m seen out := by
  intro fuel
  induction fuel with
  | zero => intro d seen _ _ hlt hfuel; omega
  | succ f ih =>
      intro d seen hnd hsub hlt hfuel
      have hSsub : seen.toFinset ⊆ (keysOf m).toFinset := by
        intro x hx
        exact List.mem_toFinset.mpr (hsub x (List.mem_toFinset.mp hx))
      have hSne : seen.toFinset ≠ (keysOf m).toFinset := by
        intro h
        have h1 : seen.toFinset.card = seen.length := List.toFinset_card_of_nodup hnd
        have h2 : (keysOf m).toFinset.card = (keysOf m).length := List.toFinset_card_of_nodup hKN
        rw [h, h2] at h1
        omega
      obtain ⟨k, hkmem, hknotS, hkcnt⟩ := hDG seen.toFinset (Finset.mem_powerset.mpr hSsub) hSne
      have hknotseen : k ∉ seen := fun h => hknotS (List.mem_toFinset.mpr h)
      have hkcnt2 : (nbrsOf m k).countP (fun n => decide (n ∉ seen)) < 6 := by
        have heq : ∀ n : α, (decide (n ∉ seen.toFinset) : Bool) = decide (n ∉ seen) := by
          intro n
          simp [List.mem_toFinset]
        rw [← countP_eq_of_forall _ _ heq]
        exact hkcnt
      have hkord : k ∈ (orders d).1 := (hORD d).mem_iff.mpr hkmem
      cases hfind : (orders d).1.find? (fun k2 =>
          decide (((nbrsOf m k2).countP (fun n => decide (n ∉ seen)) < 6) ∧ k2 ∉ seen)) with
      | none =>
          exfalso
          have hnone := List.find?_eq_none.mp hfind k hkord
          simp only [decide_eq_true_eq] at hnone
          exact hnone ⟨hkcnt2, hknotseen⟩
      | some k0 =>
          have hP := List.find?_some hfind
          simp only [decide_eq_true_eq] at hP
          obtain ⟨hcnt0, hnot0⟩ := hP
          have hk0keys : k0 ∈ keysOf m := (hORD d).mem_iff.mp (List.mem_of_find?_eq_some hfind)
          have hnd2 : (k0 :: seen).Nodup := List.nodup_cons.mpr ⟨hnot0, hnd⟩
          have hsub2 : ∀ x ∈ (k0 :: seen), x ∈ keysOf m := by
            intro x hx
            rcases List.mem_cons.mp hx with h | h
            · exact h ▸ hk0keys
            · exact hsub x h
          have hsubF : (k0 :: seen).toFinset ⊆ (keysOf m).toFinset := by
            intro x hx
            exact List.mem_toFinset.mpr (hsub2 x (List.mem_toFinset.mp hx))
          have hle2 : (k0 :: seen).length ≤ (keysOf m).length := by
            have h1 : (k0 :: seen).toFinset.card = (k0 :: seen).length :=
              List.toFinset_card_of_nodup hnd2
            have h2 : (keysOf m).toFinset.card = (keysOf m).length :=
              List.toFinset_card_of_nodup hKN
            have h3 := Finset.card_le_card hsubF
            omega
          by_cases hlen : (k0 :: seen).length = (keysOf m).length
          · refine ⟨[k0], ?_, List.nodup_singleton _, ?_, ?_, ?_⟩
            · rw [enStack, hfind]
              simp [hlen]
            · intro x hx
              rw [List.mem_singleton.mp hx]
              exact ⟨hk0keys, hnot0⟩
            · intro x hx hxs
              have hcover : (k0 :: seen).toFinset = (keysOf m).toFinset := by
                apply Finset.eq_of_subset_of_card_le hsubF
                rw [List.toFinset_card_of_nodup hnd2, List.toFinset_card_of_nodup hKN, hlen]
              have hxF : x ∈ (keysOf m).toFinset := List.mem_toFinset.mpr hx
              rw [← hcover] at hxF
              rcases List.mem_cons.mp (List.mem_toFinset.mp hxF) with h | h
              · exact h ▸ List.mem_singleton_self _
              · exact absurd h hxs
            · exact ⟨hcnt0, trivial⟩
          · have hlt2 : (k0 :: seen).length < (keysOf m).length := lt_of_le_of_ne hle2 hlen
            have hfuel2 : (keysOf m).length - (k0 :: seen).length ≤ f := by
              simp only [List.length_cons] at hfuel hlt2 ⊢
              omega
            obtain ⟨out2, heq2, hnd3, hmem3, hcov3, hdg3⟩ :=
              ih (d + 1) (k0 :: seen) hnd2 hsub2 hlt2 hfuel2
            refine ⟨k0 :: out2, ?_, ?_, ?_, ?_, ?_⟩
            · rw [enStack, hfind]
              simp only [if_neg hlen, heq2, Option.map_some']
            · refine List.nodup_cons.mpr ⟨?_, hnd3⟩
              intro h
              exact (hmem3 k0 h).2 (List.mem_cons_self _ _)
            · intro x hx
              rcases List.mem_cons.mp hx with h | h
              · exact h ▸ ⟨hk0keys, hnot0⟩
              · obtain ⟨h1, h2⟩ := hmem3 x h
                exact ⟨h1, fun hh => h2 (List.mem_cons_of_mem _ hh)⟩
            · intro x hx hxs
              by_cases hxk : x = k0
              · exact hxk ▸ List.mem_cons_self _ _
              · have hx2 : x ∉ (k0 :: seen) := by
                  intro hh
                  rcases List.mem_cons.mp hh with h | h
                  · exact hxk h
                  · exact hxs h
                exact List.mem_cons_of_mem _ (hcov3 x hx hx2)
            · exact ⟨hcnt0, hdg3⟩

/-- C2 (amended): when the graph satisfies the degeneracy condition that every
nonempty unseen set contains a vertex with fewer than 6 unseen neighbors (so
the fallback branch is never reached), enStack terminates within recursion
depth equal to the number of vertices and returns a permutation of the
vertices of the graph, for every admissible pair of map iteration orders.  In
general the claim fails: when the fallback is reached and the fallback
enumeration starts with an already-seen vertex, the output repeats a vertex
(see the counterexample), and with such an enumeration at every level the
recursion does not terminate at all. -/
theorem enStack_perm_of_degenerate {α : Type} [DecidableEq α] (m : AdjMap α)
    (orders : ℕ → List α × List α) (fuel : ℕ)
    (hKN : (keysOf m).Nodup) (hDG : Degenerate m)
    (hORD : ∀ d, List.Perm ((orders d).1) (keysOf m))
    (hORD2 : ∀ d, List.Perm ((orders d).2) (keysOf m))
    (hfuel1 : 1 ≤ fuel) (hfuel : (keysOf m).length ≤ fuel) :
    ∃ out, enStack m orders 0 [] fuel = some out ∧ List.Perm out (keysOf m) := by
  by_cases hk : keysOf m = []
  · obtain ⟨f, rfl⟩ : ∃ f, fuel = f + 1 := ⟨fuel - 1, by omega⟩
    have h1 : (orders 0).1 = [] := List.Perm.eq_nil (hk ▸ hORD 0)
    have h2 : (orders 0).2 = [] := List.Perm.eq_nil (hk ▸ hORD2 0)
    refine ⟨[], ?_, by rw [hk]⟩
    rw [enStack, h1, h2]
    simp
  · have hlt : 0 < (keysOf m).length := List.length_pos.mpr hk
    obtain ⟨out, heq, hnd, hmem, hcov, _⟩ :=
      enStack_run m orders hKN hDG hORD fuel 0 [] List.nodup_nil (by simp) hlt (by omega)
    refine ⟨out, heq, ?_⟩
    rw [List.perm_ext_iff_of_nodup hnd hKN]
    intro a
    constructor
    · intro h; exact (hmem a h).1
    · intro h; exact hcov a h (List.not_mem_nil a)

/-- Witness for C2 (amended) on the concrete single-edge graph. -/
theorem enStack_perm_of_degenerate_witness :
    ∃ out, enStack medge ordA 0 [] 5 = some out ∧ List.Perm out (keysOf medge) :=
  enStack_perm_of_degenerate medge ordA 5 (by decide) (by decide)
    (fun _ => List.Perm.refl _) (fun _ => List.Perm.refl _) (by decide) (by decide)

lemma colorLoop_run {α : Type} [DecidableEq α] (m : AdjMap α) (shuffles : ℕ → List Rgba)
    (hSH : ∀ t, List.Perm (shuffles t) paletteColors)
    (hIR : ∀ k ∈ keysOf m, k ∉ nbrsOf m k)
    (hSY : ∀ k ∈ keysOf m, ∀ n ∈ nbrsOf m k, k ∈ nbrsOf m n) :
    ∀ (out seen : List α) (t : ℕ), DegenOrderFrom m seen out → (out ++ seen).Nodup →
      (∀ x ∈ out, x ∈ keysOf m) →
      ((∀ x, x ∉ out → colorLoop m shuffles out.reverse t (fun _ => black) x = black) ∧
       (∀ x ∈ out, colorLoop m shuffles out.reverse t (fun _ => black) x ∈ paletteColors) ∧
       (∀ p ∈ out, ∀ q ∈ nbrsOf m p, q ∈ out →
          colorLoop m shuffles out.reverse t (fun _ => black) p ≠
          colorLoop m shuffles out.reverse t (fun _ => black) q)) := by
  intro out
  induction out with
  | nil =>
      intro seen t _ _ _
      refine ⟨fun x _ => rfl, ?_, ?_⟩
      · intro p h; exact absurd h (List.not_mem_nil _)
      · intro p h; exact absurd h (List.not_mem_nil _)
  | cons k rest ih =>
      intro seen t hdg hnd hsub
      obtain ⟨hcnt, hdgrest⟩ := hdg
      have hnd0 : (k :: (rest ++ seen)).Nodup := by simpa using hnd
      have hknot : k ∉ rest ++ seen := (List.nodup_cons.mp hnd0).1
      have hkrest : k ∉ rest := fun h => hknot (List.mem_append_left _ h)
      have hndperm : (rest ++ (k :: seen)).Nodup :=
        (List.perm_middle).symm.nodup hnd0
      have hsubrest : ∀ x ∈ rest, x ∈ keysOf m := fun x hx => hsub x (List.mem_cons_of_mem _ hx)
      have hkkeys : k ∈ keysOf m := hsub k (List.mem_cons_self _ _)
      obtain ⟨ihA, ihB, ihC⟩ := ih (k :: seen) t hdgrest hndperm hsubrest
      have hdisj : List.Disjoint rest (k :: seen) := List.disjoint_of_nodup_append hndperm
      have hunfold : colorLoop m shuffles (k :: rest).reverse t (fun _ => black)
          = colorStep m (shuffles (t + rest.length))
              (colorLoop m shuffles rest.reverse t (fun _ => black)) k := by
        rw [List.reverse_cons, colorLoop_append, List.length_reverse]
        rfl
      have hmidk : colorLoop m shuffles rest.reverse t (fun _ => black) k = black := ihA k hkrest
      have hfree : ∃ c ∈ shuffles (t + rest.length),
          c ∉ (nbrsOf m k).map (colorLoop m shuffles rest.reverse t (fun _ => black)) := by
        by_contra hcon
        push_neg at hcon
        have hpal : ∀ c ∈ paletteColors,
            c ∈ (nbrsOf m k).map (colorLoop m shuffles rest.reverse t (fun _ => black)) :=
          fun c hc => hcon c ((hSH (t + rest.length)).mem_iff.mpr hc)
        have hsubP : paletteColors.toFinset ⊆
            (((nbrsOf m k).filter (fun n => decide (n ∈ rest))).toFinset).image
              (colorLoop m shuffles rest.reverse t (fun _ => black)) := by
          intro c hc
          have hc2 : c ∈ paletteColors := List.mem_toFinset.mp hc
          obtain ⟨n, hn, hmidn⟩ := List.mem_map.mp (hpal c hc2)
          have hnrest : n ∈ rest := by
            by_contra hnr
            rw [ihA n hnr] at hmidn
            rw [← hmidn] at hc2
            exact (by decide : black ∉ paletteColors) hc2
          exact Finset.mem_image.mpr
            ⟨n, List.mem_toFinset.mpr (List.mem_filter.mpr ⟨hn, by simpa⟩), hmidn⟩
        have h6 : paletteColors.toFinset.card = 6 := by decide
        have hA := Finset.card_le_card hsubP
        have hB : ((((nbrsOf m k).filter (fun n => decide (n ∈ rest))).toFinset).image
              (colorLoop m shuffles rest.reverse t (fun _ => black))).card ≤
            (((nbrsOf m k).filter (fun n => decide (n ∈ rest))).toFinset).card :=
          Finset.card_image_le
        have hC := List.toFinset_card_le ((nbrsOf m k).filter (fun n => decide (n ∈ rest)))
        have hD : ((nbrsOf m k).filter (fun n => decide (n ∈ rest))).length
            ≤ (nbrsOf m k).countP (fun n => decide (n ∉ seen)) := by
          rw [← List.countP_eq_length_filter]
          apply List.countP_mono_left
          intro n _ hp
          simp only [decide_eq_true_eq] at hp ⊢
          exact fun hns => hdisj hp (List.mem_cons_of_mem _ hns)
        omega
      obtain ⟨c0, hc0shuf, hc0free⟩ := hfree
      have hne : (shuffles (t + rest.length)).filter
          (fun c => decide (c ∉ (nbrsOf m k).map
            (colorLoop m shuffles rest.reverse t (fun _ => black)))) ≠ [] :=
        List.ne_nil_of_mem (List.mem_filter.mpr ⟨hc0shuf, by simpa using hc0free⟩)
      have hnewmem := getLast?_getD_mem _ black hne
      have hstepk : colorLoop m shuffles (k :: rest).reverse t (fun _ => black) k
          = (((shuffles (t + rest.length)).filter
              (fun c => decide (c ∉ (nbrsOf m k).map
                (colorLoop m shuffles rest.reverse t (fun _ => black))))).getLast?).getD black := by
        rw [hunfold]
        unfold colorStep
        rw [if_pos rfl, assignLoop_eq_lastFree, hmidk]
      have hstepo : ∀ x, x ≠ k →
          colorLoop m shuffles (k :: rest).reverse t (fun _ => black) x
            = colorLoop m shuffles rest.reverse t (fun _ => black) x := by
        intro x hx
        rw [hunfold]
        unfold colorStep
        rw [if_neg hx]
      have hnshuf := (List.mem_filter.mp hnewmem).1
      have hnfree : (((shuffles (t + rest.length)).filter
            (fun c => decide (c ∉ (nbrsOf m k).map
              (colorLoop m shuffles rest.reverse t (fun _ => black))))).getLast?).getD black
          ∉ (nbrsOf m k).map (colorLoop m shuffles rest.reverse t (fun _ => black)) := by
        have := (List.mem_filter.mp hnewmem).2
        simpa using this
      have hnpal : (((shuffles (t + rest.length)).filter
            (fun c => decide (c ∉ (nbrsOf m k).map
              (colorLoop m shuffles rest.reverse t (fun _ => black))))).getLast?).getD black
          ∈ paletteColors := (hSH (t + rest.length)).mem_iff.mp hnshuf
      refine ⟨?_, ?_, ?_⟩
      · intro x hx
        have hxk : x ≠ k := fun h => hx (h ▸ List.mem_cons_self _ _)
        have hxr : x ∉ rest := fun h => hx (List.mem_cons_of_mem _ h)
        rw [hstepo x hxk]
        exact ihA x hxr
      · intro x hx
        rcases List.mem_cons.mp hx with h | h
        · subst h
          rw [hstepk]
          exact hnpal
        · have hxk : x ≠ k := fun hh => hkrest (hh ▸ h)
          rw [hstepo x hxk]
          exact ihB x h
      · intro p hp q hq hqmem
        rcases List.mem_cons.mp hp with hpk | hprest
        · rcases List.mem_cons.mp hqmem with hqk | hqrest
          · rw [hpk, hqk] at hq
            exact absurd hq (hIR k hkkeys)
          · have hqne : q ≠ k := fun hh => hkrest (hh ▸ hqrest)
            rw [hpk] at hq ⊢
            rw [hstepk, hstepo q hqne]
            intro hcontra
            rw [hcontra] at hnfree
            exact hnfree (List.mem_map.mpr ⟨q, hq, rfl⟩)
        · rcases List.mem_cons.mp hqmem with hqk | hqrest
          · have hpne : p ≠ k := fun hh => hkrest (hh ▸ hprest)
            rw [hqk] at hq ⊢
            rw [hstepk, hstepo p hpne]
            have hpn : p ∈ nbrsOf m k := hSY p (hsubrest p hprest) k hq
            intro hcontra
            rw [← hcontra] at hnfree
            exact hnfree (List.mem_map.mpr ⟨p, hpn, rfl⟩)
          · have hpne : p ≠ k := fun hh => hkrest (hh ▸ hprest)
            have hqne : q ≠ k := fun hh => hkrest (hh ▸ hqrest)
            rw [hstepo p hpne, hstepo q hqne]
            exact ihC p hprest q hq hqrest

/-- C1 (amended): after colorPoints runs, the colors of any two adjacent sites
differ, provided the adjacency graph is loop-free, symmetric and satisfies the
degeneracy condition (every nonempty unseen set has a vertex with fewer than 6
unseen neighbors, so the enStack fallback is never taken), for every
admissible iteration order and every palette shuffle sequence.  Without the
degeneracy condition the claim fails: on a dense graph two adjacent sites can
both be left uncolored at the same initial black (see the counterexample). -/
theorem colorPoints_proper_of_degenerate {α : Type} [DecidableEq α] (m : AdjMap α)
    (orders : ℕ → List α × List α) (shuffles : ℕ → List Rgba) (fuel : ℕ)
    (hKN : (keysOf m).Nodup) (hDG : Degenerate m)
    (hIR : ∀ k ∈ keysOf m, k ∉ nbrsOf m k)
    (hSY : ∀ k ∈ keysOf m, ∀ n ∈ nbrsOf m k, k ∈ nbrsOf m n)
    (hORD : ∀ d, List.Perm ((orders d).1) (keysOf m))
    (hSH : ∀ t, List.Perm (shuffles t) paletteColors)
    (hfuel : (keysOf m).length ≤ fuel)
    (cf : α → Rgba)
    (hrun : colorPoints m orders shuffles fuel (fun _ => black) = some cf) :
    ∀ p ∈ keysOf m, ∀ q ∈ nbrsOf m p, cf p ≠ cf q := by
  by_cases hk : keysOf m = []
  · intro p hp
    rw [hk] at hp
    exact absurd hp (List.not_mem_nil _)
  · have hlt : 0 < (keysOf m).length := List.length_pos.mpr hk
    obtain ⟨out, heq, hnd, hmem, hcov, hdg⟩ :=
      enStack_run m orders hKN hDG hORD fuel 0 [] List.nodup_nil (by simp) hlt (by omega)
    unfold colorPoints at hrun
    rw [heq] at hrun
    simp only [Option.map_some'] at hrun
    rw [Option.some_inj] at hrun
    obtain ⟨iA, iB, iC⟩ := colorLoop_run m shuffles hSH hIR hSY out [] 0 hdg
      (by simpa using hnd) (fun x hx => (hmem x hx).1)
    intro p hp q hq
    have hpout : p ∈ out := hcov p hp (List.not_mem_nil _)
    rw [← hrun]
    by_cases hqout : q ∈ out
    · exact iC p hpout q hq hqout
    · rw [iA q hqout]
      intro h
      have hpal := iB p hpout
      rw [h] at hpal
      exact (by decide : black ∉ paletteColors) hpal

/-- Witness for C1 (amended) on the concrete single-edge graph: the two
adjacent sites receive different colors. -/
theorem colorPoints_proper_of_degenerate_witness :
    ((colorPoints medge ordA shufId 5 (fun _ => black)).getD (fun _ => black)) 0 ≠
    ((colorPoints medge ordA shufId 5 (fun _ => black)).getD (fun _ => black)) 1 :=
  colorPoints_proper_of_degenerate medge ordA shufId 5 (by decide) (by decide)
    (by decide) (by decide) (fun _ => List.Perm.refl _) (fun _ => List.Perm.refl _)
    (by decide)
    ((colorPoints medge ordA shufId 5 (fun _ => black)).getD (fun _ => black))
    (by rfl) 0 (by decide) 1 (by decide)

/-- C3 (amended): the code raises no failure on coloring exhaustion — when
every palette color is seen the assignment loop writes nothing and the site
silently keeps its previous (initial black, non-palette) color, and the run
completes normally (see the counterexample).  The second half of the claim is
correct: under the degeneracy condition at most 5 neighbor palette colors can
be seen when a site is colored, so a free palette color always exists and
every site of the graph ends with a palette color — exhaustion never occurs
in that regime. -/
theorem colorPoints_palette_of_degenerate {α : Type} [DecidableEq α] (m : AdjMap α)
    (orders : ℕ → List α × List α) (shuffles : ℕ → List Rgba) (fuel : ℕ)
    (hKN : (keysOf m).Nodup) (hDG : Degenerate m)
    (hIR : ∀ k ∈ keysOf m, k ∉ nbrsOf m k)
    (hSY : ∀ k ∈ keysOf m, ∀ n ∈ nbrsOf m k, k ∈ nbrsOf m n)
    (hORD : ∀ d, List.Perm ((orders d).1) (keysOf m))
    (hSH : ∀ t, List.Perm (shuffles t) paletteColors)
    (hfuel : (keysOf m).length ≤ fuel)
    (cf : α → Rgba)
    (hrun : colorPoints m orders shuffles fuel (fun _ => black) = some cf) :
    ∀ p ∈ keysOf m, cf p ∈ paletteColors := by
  by_cases hk : keysOf m = []
  · intro p hp
    rw [hk] at hp
    exact absurd hp (List.not_mem_nil _)
  · have hlt : 0 < (keysOf m).length := List.length_pos.mpr hk
    obtain ⟨out, heq, hnd, hmem, hcov, hdg⟩ :=
      enStack_run m orders hKN hDG hORD fuel 0 [] List.nodup_nil (by simp) hlt (by omega)
    unfold colorPoints at hrun
    rw [heq] at hrun
    simp only [Option.map_some'] at hrun
    rw [Option.some_inj] at hrun
    obtain ⟨iA, iB, iC⟩ := colorLoop_run m shuffles hSH hIR hSY out [] 0 hdg
      (by simpa using hnd) (fun x hx => (hmem x hx).1)
    intro p hp
    rw [← hrun]
    exact iB p (hcov p hp (List.not_mem_nil _))

/-- Witness for C3 (amended) on the concrete single-edge graph: site 0 ends
with a palette color. -/
theorem colorPoints_palette_of_degenerate_witness :
    ((colorPoints medge ordA shufId 5 (fun _ => black)).getD (fun _ => black)) 0 ∈
      paletteColors :=
  colorPoints_palette_of_degenerate medge ordA shufId 5 (by decide) (by decide)
    (by decide) (by decide) (fun _ => List.Perm.refl _) (fun _ => List.Perm.refl _)
    (by decide)
    ((colorPoints medge ordA shufId 5 (fun _ => black)).getD (fun _ => black))
    (by rfl) 0 (by decide)

lemma filterMap_tag_eq {γ : Type} {α : Type} [DecidableEq α] (k : α) (ws : List γ) :
    (ws.map (fun c => (k, c))).filterMap
      (fun e => if e.1 = k then some e.2 else none) = ws := by
  induction ws with
  | nil => rfl
  | cons c ws ih => simp [List.filterMap_cons, ih]

lemma filterMap_tag_ne {γ : Type} {α : Type} [DecidableEq α] (k s : α) (h : s ≠ k)
    (ws : List γ) :
    (ws.map (fun c => (k, c))).filterMap
      (fun e => if e.1 = s then some e.2 else none) = [] := by
  have hk : ¬ k = s := fun hh => h hh.symm
  induction ws with
  | nil => rfl
  | cons c ws ih =>
      simp only [List.map_cons, List.filterMap_cons, if_neg hk]
      exact ih

/-- C8 (amended): writes to site color fields happen only in colorPoints
iterations, each iteration writes only the site it processes (every log entry
names a site of the processed stack), and within one iteration the field of
that site is written once per shuffled palette color that is absent from the
neighbor-color set — so a site can be written up to six times in its
iteration, or zero times on exhaustion, rather than exactly once.  The final
color of any site s equals the chronologically last value written to s, or
the initial color when s is never written. -/
theorem colorWriteLog_char {α : Type} [DecidableEq α] (m : AdjMap α)
    (sh : ℕ → List Rgba) :
    ∀ (ks : List α) (t : ℕ) (col : α → Rgba) (s : α),
      (∀ e ∈ colorWriteLog m sh ks t col, e.1 ∈ ks) ∧
      colorLoop m sh ks t col s =
        (((colorWriteLog m sh ks t col).filterMap
            (fun e => if e.1 = s then some e.2 else none)).getLast?).getD (col s) := by
  intro ks
  induction ks with
  | nil =>
      intro t col s
      exact ⟨fun e he => absurd he (List.not_mem_nil _), rfl⟩
  | cons k ks ih =>
      intro t col s
      constructor
      · intro e he
        rw [colorWriteLog] at he
        rcases List.mem_append.mp he with h | h
        · obtain ⟨c, _, rfl⟩ := List.mem_map.mp h
          exact List.mem_cons_self _ _
        · exact List.mem_cons_of_mem _ ((ih (t + 1) (colorStep m (sh t) col k) s).1 e h)
      · rw [colorWriteLog, colorLoop]
        rw [(ih (t + 1) (colorStep m (sh t) col k) s).2]
        rw [List.filterMap_append, List.getLast?_append]
        cases hfm2 : ((colorWriteLog m sh ks (t + 1) (colorStep m (sh t) col k)).filterMap
            (fun e => if e.1 = s then some e.2 else none)).getLast? with
        | some v => simp [hfm2]
        | none =>
            simp only [hfm2, Option.none_or, Option.getD_none]
            by_cases hsk : s = k
            · subst hsk
              rw [filterMap_tag_eq]
              unfold colorStep
              rw [if_pos rfl, assignLoop_eq_lastFree]
              rfl
            · rw [filterMap_tag_ne _ _ hsk]
              unfold colorStep
              rw [if_neg hsk]
              rfl

/-- Witness for C8 (amended): the final color of site 0 after the coloring
loop over the reversed stack of the single-edge run is the last value the log
records as written to site 0. -/
theorem colorWriteLog_char_witness :
    colorLoop medge shufId [1, 0] 0 (fun _ => black) 0 =
      (((colorWriteLog medge shufId [1, 0] 0 (fun _ => black)).filterMap
          (fun e => if e.1 = 0 then some e.2 else none)).getLast?).getD black :=
  (colorWriteLog_char medge shufId [1, 0] 0 (fun _ => black) 0).2

lemma enStack_subset_keys {α : Type} [DecidableEq α] (m : AdjMap α)
    (orders : ℕ → List α × List α)
    (hO1 : ∀ d, ∀ x ∈ (orders d).1, x ∈ keysOf m)
    (hO2 : ∀ d, ∀ x ∈ (orders d).2, x ∈ keysOf m) :
    ∀ (fuel d : ℕ) (seen : List α) (out : List α),
      enStack m orders d seen fuel = some out → ∀ x ∈ out, x ∈ keysOf m := by
  intro fuel
  induction fuel with
  | zero =>
      intro d seen out h
      rw [enStack] at h
      exact absurd h (by simp)
  | succ f ih =>
      intro d seen out h
      rw [enStack] at h
      rcases hf : (orders d).1.find? (fun k =>
          decide (((nbrsOf m k).countP (fun n => decide (n ∉ seen)) < 6) ∧ k ∉ seen)) with _ | k
      · rw [hf] at h
        rcases hh : (orders d).2.head? with _ | k
        · rw [hh] at h
          simp only at h
          rw [← Option.some_inj.mp h]
          intro x hx
          exact absurd hx (List.not_mem_nil _)
        · rw [hh] at h
          simp only at h
          have hkkeys : k ∈ keysOf m := by
            apply hO2 d
            cases h2 : (orders d).2 with
            | nil => rw [h2] at hh; exact absurd hh (by simp)
            | cons a l2 =>
                rw [h2] at hh
                simp only [List.head?_cons, Option.some_inj] at hh
                rw [← hh]
                exact List.mem_cons_self _ _
          split at h <;> split at h
          · rw [← Option.some_inj.mp h]
            intro x hx
            rw [List.mem_singleton.mp hx]
            exact hkkeys
          · rcases Option.map_eq_some'.mp h with ⟨out2, heq2, rfl⟩
            intro x hx
            rcases List.mem_cons.mp hx with hxk | hxr
            · exact hxk ▸ hkkeys
            · exact ih (d + 1) _ out2 heq2 x hxr
          · rw [← Option.some_inj.mp h]
            intro x hx
            rw [List.mem_singleton.mp hx]
            exact hkkeys
          · rcases Option.map_eq_some'.mp h with ⟨out2, heq2, rfl⟩
            intro x hx
            rcases List.mem_cons.mp hx with hxk | hxr
            · exact hxk ▸ hkkeys
            · exact ih (d + 1) _ out2 heq2 x hxr
      · rw [hf] at h
        simp only at h
        have hkkeys : k ∈ keysOf m := hO1 d k (List.mem_of_find?_eq_some hf)
        split at h
        · rw [← Option.some_inj.mp h]
          intro x hx
          rw [List.mem_singleton.mp hx]
          exact hkkeys
        · rcases Option.map_eq_some'.mp h with ⟨out2, heq2, rfl⟩
          intro x hx
          rcases List.mem_cons.mp hx with hxk | hxr
          · exact hxk ▸ hkkeys
          · exact ih (d + 1) _ out2 heq2 x hxr

/-- C10: a site whose coordinate key is not a key of the adjacency map is
never processed by colorPoints — its color field keeps the initial
RGBA(0,0,0,255) of site creation, and that color is not a palette entry.
Every vertex enStack emits comes from an enumeration of the adjacency map
keys, so the coloring loop never touches any other site. -/
theorem colorPoints_untouched_nonkey {α : Type} [DecidableEq α] (m : AdjMap α)
    (orders : ℕ → List α × List α) (shuffles : ℕ → List Rgba) (fuel : ℕ)
    (hO1 : ∀ d, ∀ x ∈ (orders d).1, x ∈ keysOf m)
    (hO2 : ∀ d, ∀ x ∈ (orders d).2, x ∈ keysOf m)
    (s : α) (hs : s ∉ keysOf m) (cf : α → Rgba)
    (hrun : colorPoints m orders shuffles fuel (fun _ => black) = some cf) :
    cf s = black ∧ black ∉ paletteColors := by
  refine ⟨?_, by decide⟩
  unfold colorPoints at hrun
  cases heq : enStack m orders 0 [] fuel with
  | none =>
      rw [heq] at hrun
      exact absurd hrun (by simp)
  | some stack =>
      rw [heq] at hrun
      simp only [Option.map_some'] at hrun
      rw [Option.some_inj] at hrun
      rw [← hrun]
      apply colorLoop_not_mem
      intro hmem
      exact hs (enStack_subset_keys m orders hO1 hO2 fuel 0 [] stack heq s
        (List.mem_reverse.mp hmem))

/-- Witness for C10 on the single-edge graph: site 5 has no key in the map
and keeps black. -/
theorem colorPoints_untouched_nonkey_witness :
    ((colorPoints medge ordA shufId 5 (fun _ => black)).getD (fun _ => black)) 5 = black ∧
    black ∉ paletteColors :=
  colorPoints_untouched_nonkey medge ordA shufId 5
    (fun _ x hx => hx) (fun _ x hx => hx) 5 (by decide)
    ((colorPoints medge ordA shufId 5 (fun _ => black)).getD (fun _ => black))
    (by rfl)
